import Mathlib

/-!
Verification of the production-planning front end (React/TypeScript sources
`LPSolver.tsx`, `ProductionForm.tsx`, `ProductionResults.tsx`).

The embedding models JavaScript numbers by an arbitrary additive commutative
monoid `R` (instantiated at `ℤ` for concrete evaluations): the source code only
adds quantities, so every aggregation is polymorphic in the numeric type.
JavaScript objects used as string-keyed maps, and the accumulator arrays built
by `Array.prototype.reduce`, are modelled as association lists in insertion
order of their keys.
-/

section GroupingMachinery

variable {α : Type} {κ : Type} {β : Type} [DecidableEq κ]

/-- Model of mutating the first accumulator element whose key is `k`
(`existing.quantity += item.quantity` after `acc.find(...)` in the sources):
the first pair with key `k` has its value combined with `v` by `f`. -/
def bumpWith (f : β → β → β) (k : κ) (v : β) : List (κ × β) → List (κ × β)
  | [] => []
  | p :: ps => if p.1 = k then (p.1, f p.2 v) :: ps else p :: bumpWith f k v ps

/-- One step of the `reduce` accumulators in the sources: look for an entry
with key `k` (`acc.find(x => x.key === item.key)`), combine into it if found,
otherwise push `(k, v)` at the end (`acc.push({...})`).  With
`f := fun c v => c + v` this is the quantity-summing step; with
`f := fun _ v => v` it is JavaScript object assignment `acc[k] = v`. -/
def upsertWith (f : β → β → β) (acc : List (κ × β)) (k : κ) (v : β) : List (κ × β) :=
  match acc.find? (fun p => decide (p.1 = k)) with
  | some _ => bumpWith f k v acc
  | none => acc ++ [(k, v)]

/-- `l.reduce((acc, x) => upsert, [])` over a whole list: the shared shape of
`productionByHour`, `productionByMachine`, `productionByPeriod`,
`bufferByMachine`, `emergencyBySpec` and `machine_capacity_per_hour`. -/
def groupFold (key : α → κ) (val : α → β) (f : β → β → β) (l : List α) : List (κ × β) :=
  l.foldl (fun acc x => upsertWith f acc (key x) (val x)) []

/-- Value stored under key `k` in an association list (first entry wins,
which is the unique entry when keys are nodup). -/
def lookupKey (k : κ) : List (κ × β) → Option β
  | [] => none
  | p :: ps => if p.1 = k then some p.2 else lookupKey k ps

/-- The list of first occurrences: keeps each element once, at the position
of its first occurrence. -/
def firstOccurrences : List κ → List κ
  | [] => []
  | x :: xs => x :: (firstOccurrences xs).filter (fun y => decide (y ≠ x))

/-- First occurrences of elements not already in `seen`, in order. -/
def freshFirsts (seen : List κ) : List κ → List κ
  | [] => []
  | x :: xs => if x ∈ seen then freshFirsts seen xs else x :: freshFirsts (x :: seen) xs

/-- Folding a combining function over a list of values starting from an
optional current value; describes the value accumulated for one key by
a sequence of upserts. -/
def applyAll (f : β → β → β) : Option β → List β → Option β
  | cur, [] => cur
  | some c, v :: vs => applyAll f (some (f c v)) vs
  | none, v :: vs => applyAll f (some v) vs

theorem find?_key_eq (k : κ) (l : List (κ × β)) :
    l.find? (fun p => decide (p.1 = k)) = (lookupKey k l).map (fun v => (k, v)) := by
  induction l with
  | nil => rfl
  | cons p ps ih =>
    obtain ⟨p1, p2⟩ := p
    by_cases h : p1 = k
    · subst h
      simp [List.find?, lookupKey]
    · simp [List.find?, lookupKey, h, ih]

theorem bumpWith_map_fst (f : β → β → β) (k : κ) (v : β) (l : List (κ × β)) :
    (bumpWith f k v l).map Prod.fst = l.map Prod.fst := by
  induction l with
  | nil => rfl
  | cons p ps ih =>
    by_cases h : p.1 = k
    · simp [bumpWith, h]
    · simp [bumpWith, h, ih]

theorem lookupKey_bumpWith_self (f : β → β → β) (k : κ) (v : β) (l : List (κ × β)) :
    lookupKey k (bumpWith f k v l) = (lookupKey k l).map (fun c => f c v) := by
  induction l with
  | nil => rfl
  | cons p ps ih =>
    by_cases h : p.1 = k
    · simp [bumpWith, h, lookupKey]
    · simp [bumpWith, h, lookupKey, ih]

theorem lookupKey_bumpWith_ne (f : β → β → β) {k k' : κ} (hne : k' ≠ k) (v : β)
    (l : List (κ × β)) :
    lookupKey k' (bumpWith f k v l) = lookupKey k' l := by
  induction l with
  | nil => rfl
  | cons p ps ih =>
    by_cases h : p.1 = k
    · have h' : ¬ p.1 = k' := by rw [h]; exact Ne.symm hne
      simp only [bumpWith, if_pos h, lookupKey]
      rw [if_neg h', if_neg h']
    · simp only [bumpWith, if_neg h, lookupKey]
      by_cases h2 : p.1 = k'
      · rw [if_pos h2, if_pos h2]
      · rw [if_neg h2, if_neg h2, ih]

theorem lookupKey_append (k : κ) (l₁ l₂ : List (κ × β)) :
    lookupKey k (l₁ ++ l₂) = (lookupKey k l₁).or (lookupKey k l₂) := by
  induction l₁ with
  | nil => simp [lookupKey]
  | cons p ps ih =>
    by_cases h : p.1 = k
    · simp [lookupKey, h]
    · simp [lookupKey, h, ih]

theorem lookupKey_upsertWith_self (f : β → β → β) (acc : List (κ × β)) (k : κ) (v : β) :
    lookupKey k (upsertWith f acc k v) =
      some (match lookupKey k acc with | some c => f c v | none => v) := by
  unfold upsertWith
  rw [find?_key_eq]
  cases h : lookupKey k acc with
  | some c => simp [lookupKey_bumpWith_self, h]
  | none => simp [lookupKey_append, h, lookupKey]

theorem lookupKey_upsertWith_ne (f : β → β → β) (acc : List (κ × β)) {k k' : κ}
    (hne : k' ≠ k) (v : β) :
    lookupKey k' (upsertWith f acc k v) = lookupKey k' acc := by
  unfold upsertWith
  rw [find?_key_eq]
  cases h : lookupKey k acc with
  | some c => simp [lookupKey_bumpWith_ne f hne]
  | none => simp [lookupKey_append, lookupKey, Ne.symm hne]

theorem lookupKey_isSome_iff_mem_map_fst (k : κ) (l : List (κ × β)) :
    (lookupKey k l).isSome ↔ k ∈ l.map Prod.fst := by
  induction l with
  | nil => simp [lookupKey]
  | cons p ps ih =>
    by_cases h : p.1 = k
    · simp [lookupKey, h]
    · simp [lookupKey, h, ih, Ne.symm h]

theorem map_fst_upsertWith (f : β → β → β) (acc : List (κ × β)) (k : κ) (v : β) :
    (upsertWith f acc k v).map Prod.fst =
      if k ∈ acc.map Prod.fst then acc.map Prod.fst else acc.map Prod.fst ++ [k] := by
  unfold upsertWith
  rw [find?_key_eq]
  cases h : lookupKey k acc with
  | some c =>
    have hmem : k ∈ acc.map Prod.fst := by
      rw [← lookupKey_isSome_iff_mem_map_fst, h]; rfl
    simp [bumpWith_map_fst, hmem]
  | none =>
    have hmem : ¬ k ∈ acc.map Prod.fst := by
      rw [← lookupKey_isSome_iff_mem_map_fst, h]; simp
    simp [hmem]

theorem lookupKey_foldl_upsertWith (key : α → κ) (val : α → β) (f : β → β → β)
    (l : List α) (acc : List (κ × β)) (k : κ) :
    lookupKey k (l.foldl (fun a x => upsertWith f a (key x) (val x)) acc) =
      applyAll f (lookupKey k acc) ((l.filter (fun x => decide (key x = k))).map val) := by
  induction l generalizing acc with
  | nil =>
    rw [List.foldl_nil, List.filter_nil, List.map_nil]
    cases lookupKey k acc <;> rfl
  | cons x xs ih =>
    by_cases h : key x = k
    · rw [List.foldl_cons, ih]
      have hstep : lookupKey k (upsertWith f acc (key x) (val x)) =
          some (match lookupKey k acc with | some c => f c (val x) | none => val x) := by
        rw [h] at *
        exact lookupKey_upsertWith_self f acc k (val x)
      rw [hstep]
      have hfil : (x :: xs).filter (fun y => decide (key y = k)) =
          x :: xs.filter (fun y => decide (key y = k)) := by
        simp [List.filter, h]
      rw [hfil, List.map_cons]
      cases hc : lookupKey k acc with
      | some c => simp [applyAll]
      | none => simp [applyAll]
    · rw [List.foldl_cons, ih, lookupKey_upsertWith_ne f acc (fun hx => h hx.symm) (val x)]
      have hfil : (x :: xs).filter (fun y => decide (key y = k)) =
          xs.filter (fun y => decide (key y = k)) := by
        simp [List.filter, h]
      rw [hfil]

theorem freshFirsts_congr {seen₁ seen₂ : List κ} (h : ∀ a, a ∈ seen₁ ↔ a ∈ seen₂)
    (xs : List κ) : freshFirsts seen₁ xs = freshFirsts seen₂ xs := by
  induction xs generalizing seen₁ seen₂ with
  | nil => rfl
  | cons x xs ih =>
    by_cases hx : x ∈ seen₁
    · simp [freshFirsts, hx, (h x).mp hx, ih h]
    · have hx2 : ¬ x ∈ seen₂ := fun hc => hx ((h x).mpr hc)
      have h' : ∀ a, a ∈ x :: seen₁ ↔ a ∈ x :: seen₂ := by
        intro a
        simp [h a]
      simp [freshFirsts, hx, hx2, ih h']

theorem map_fst_foldl_upsertWith (key : α → κ) (val : α → β) (f : β → β → β)
    (l : List α) (acc : List (κ × β)) :
    (l.foldl (fun a x => upsertWith f a (key x) (val x)) acc).map Prod.fst =
      acc.map Prod.fst ++ freshFirsts (acc.map Prod.fst) (l.map key) := by
  induction l generalizing acc with
  | nil => simp [freshFirsts]
  | cons x xs ih =>
    rw [List.foldl_cons, ih, map_fst_upsertWith, List.map_cons]
    by_cases h : key x ∈ acc.map Prod.fst
    · simp [freshFirsts, h]
    · have hcongr : freshFirsts (acc.map Prod.fst ++ [key x]) (xs.map key) =
          freshFirsts (key x :: acc.map Prod.fst) (xs.map key) := by
        apply freshFirsts_congr
        intro a
        simp [or_comm]
      simp [freshFirsts, h, hcongr, List.append_assoc]

theorem freshFirsts_eq_filter (seen : List κ) (xs : List κ) :
    freshFirsts seen xs = (firstOccurrences xs).filter (fun a => decide (a ∉ seen)) := by
  induction xs generalizing seen with
  | nil => rfl
  | cons x xs ih =>
    rw [firstOccurrences, freshFirsts]
    by_cases hx : x ∈ seen
    · rw [if_pos hx, List.filter_cons, if_neg (by simp [hx])]
      rw [List.filter_filter, ih]
      apply List.filter_congr
      intro a _
      by_cases ha : a ∈ seen
      · simp [ha]
      · have hax : ¬ a = x := fun h => ha (h ▸ hx)
        simp [ha, hax]
    · rw [if_neg hx, List.filter_cons, if_pos (by simp [hx])]
      rw [List.filter_filter, ih]
      congr 1
      apply List.filter_congr
      intro a _
      by_cases hax : a = x
      · simp [hax, hx, List.mem_cons]
      · by_cases ha : a ∈ seen <;> simp [hax, ha, List.mem_cons]

theorem freshFirsts_nil_eq (xs : List κ) : freshFirsts [] xs = firstOccurrences xs := by
  rw [freshFirsts_eq_filter]
  apply List.filter_eq_self.mpr
  intro a _
  simp

theorem mem_firstOccurrences {xs : List κ} {a : κ} :
    a ∈ firstOccurrences xs ↔ a ∈ xs := by
  induction xs with
  | nil => simp [firstOccurrences]
  | cons x xs ih =>
    by_cases hax : a = x <;>
      simp [firstOccurrences, List.mem_filter, ih, hax, List.mem_cons]

theorem nodup_firstOccurrences (xs : List κ) : (firstOccurrences xs).Nodup := by
  induction xs with
  | nil => simp [firstOccurrences]
  | cons x xs ih =>
    rw [firstOccurrences]
    refine List.Nodup.cons ?_ (ih.filter _)
    intro hmem
    have := (List.mem_filter.mp hmem).2
    simp at this

theorem map_fst_groupFold (key : α → κ) (val : α → β) (f : β → β → β) (l : List α) :
    (groupFold key val f l).map Prod.fst = firstOccurrences (l.map key) := by
  rw [groupFold, map_fst_foldl_upsertWith]
  simp [freshFirsts_nil_eq]

theorem nodup_map_fst_groupFold (key : α → κ) (val : α → β) (f : β → β → β) (l : List α) :
    ((groupFold key val f l).map Prod.fst).Nodup := by
  rw [map_fst_groupFold]
  exact nodup_firstOccurrences _

theorem lookupKey_eq_some_iff_mem {l : List (κ × β)} (h : (l.map Prod.fst).Nodup)
    (k : κ) (v : β) : lookupKey k l = some v ↔ (k, v) ∈ l := by
  induction l with
  | nil => simp [lookupKey]
  | cons p ps ih =>
    rw [List.map_cons, List.nodup_cons] at h
    by_cases hk : p.1 = k
    · rw [lookupKey, if_pos hk]
      constructor
      · intro hv
        have : p = (k, v) := by
          obtain ⟨p1, p2⟩ := p
          simp at hk hv
          simp [hk, hv]
        exact this ▸ List.mem_cons_self p ps
      · intro hm
        rcases List.mem_cons.mp hm with hm | hm
        · rw [← hm]
        · exact absurd (hk ▸ (List.mem_map.mpr ⟨(k, v), hm, rfl⟩ : k ∈ ps.map Prod.fst)) h.1
    · rw [lookupKey, if_neg hk, ih h.2]
      constructor
      · exact fun hm => List.mem_cons_of_mem _ hm
      · intro hm
        rcases List.mem_cons.mp hm with hm | hm
        · exact absurd (congrArg Prod.fst hm.symm) hk
        · exact hm

theorem lookupKey_eq_of_perm {l l' : List (κ × β)} (h : (l.map Prod.fst).Nodup)
    (hp : l.Perm l') (k : κ) : lookupKey k l = lookupKey k l' := by
  have h' : (l'.map Prod.fst).Nodup := ((hp.map Prod.fst).nodup_iff).mp h
  cases hl : lookupKey k l with
  | some v =>
    have hm : (k, v) ∈ l := (lookupKey_eq_some_iff_mem h k v).mp hl
    exact ((lookupKey_eq_some_iff_mem h' k v).mpr (hp.mem_iff.mp hm)).symm
  | none =>
    cases hl' : lookupKey k l' with
    | none => rfl
    | some v =>
      have hm : (k, v) ∈ l := hp.mem_iff.mpr ((lookupKey_eq_some_iff_mem h' k v).mp hl')
      rw [(lookupKey_eq_some_iff_mem h k v).mpr hm] at hl
      cases hl

end GroupingMachinery

section ValueLemmas

variable {α : Type} {κ : Type} [DecidableEq κ] {R : Type}

theorem applyAll_add [AddMonoid R] (c : R) (vs : List R) :
    applyAll (fun a b => a + b) (some c) vs = some (c + vs.sum) := by
  induction vs generalizing c with
  | nil => simp [applyAll]
  | cons v vs ih => simp [applyAll, ih, add_assoc]

theorem applyAll_lastWins {β : Type} (cur : Option β) (vs : List β) :
    applyAll (fun _ v => v) cur vs = vs.reverse.head?.or cur := by
  induction vs generalizing cur with
  | nil => cases cur <;> simp [applyAll]
  | cons v vs ih =>
    cases cur with
    | none =>
      simp only [applyAll, ih, List.reverse_cons, List.head?_append]
      cases (vs.reverse.head?) <;> simp
    | some c =>
      simp only [applyAll, ih, List.reverse_cons, List.head?_append]
      cases (vs.reverse.head?) <;> simp

theorem lookupKey_groupFold_add [AddCommMonoid R] (key : α → κ) (val : α → R)
    (l : List α) (k : κ) :
    lookupKey k (groupFold key val (fun c v => c + v) l) =
      if k ∈ l.map key then some (((l.filter (fun x => decide (key x = k))).map val).sum)
      else none := by
  rw [groupFold, lookupKey_foldl_upsertWith]
  by_cases h : k ∈ l.map key
  · rw [if_pos h]
    obtain ⟨x, hx, hkx⟩ := List.mem_map.mp h
    have hmemf : x ∈ l.filter (fun x => decide (key x = k)) :=
      List.mem_filter.mpr ⟨hx, by simp [hkx]⟩
    obtain ⟨y, ys, hys⟩ := List.exists_cons_of_ne_nil (List.ne_nil_of_mem hmemf)
    rw [hys, List.map_cons]
    show applyAll _ none _ = _
    simp only [applyAll, applyAll_add, List.sum_cons]
  · rw [if_neg h]
    have hnil : l.filter (fun x => decide (key x = k)) = [] := by
      rw [List.filter_eq_nil_iff]
      intro a ha
      simp only [decide_eq_true_eq]
      exact fun hk => h (List.mem_map.mpr ⟨a, ha, hk⟩)
    rw [hnil]
    rfl

theorem lookupKey_groupFold_lastWins {β : Type} (key : α → κ) (val : α → β)
    (l : List α) (k : κ) :
    lookupKey k (groupFold key val (fun _ v => v) l) =
      ((l.filter (fun x => decide (key x = k))).getLast?).map val := by
  rw [groupFold, lookupKey_foldl_upsertWith]
  show applyAll _ none _ = _
  rw [applyAll_lastWins, Option.or_none, ← List.map_reverse, List.head?_map,
    List.head?_reverse]

theorem sum_snd_bumpWith_of_mem [AddCommMonoid R] {k : κ} {l : List (κ × R)}
    (h : k ∈ l.map Prod.fst) (v : R) :
    ((bumpWith (fun c w => c + w) k v l).map Prod.snd).sum = (l.map Prod.snd).sum + v := by
  induction l with
  | nil => simp at h
  | cons p ps ih =>
    by_cases hk : p.1 = k
    · simp only [bumpWith, if_pos hk, List.map_cons, List.sum_cons]
      rw [add_assoc, add_assoc, add_comm v]
    · have hmem : k ∈ ps.map Prod.fst := by
        rcases List.mem_cons.mp (List.map_cons Prod.fst p ps ▸ h) with hc | hc
        · exact absurd hc.symm hk
        · exact hc
      simp only [bumpWith, if_neg hk, List.map_cons, List.sum_cons, ih hmem, add_assoc]

theorem sum_snd_upsertWith [AddCommMonoid R] (acc : List (κ × R)) (k : κ) (v : R) :
    ((upsertWith (fun c w => c + w) acc k v).map Prod.snd).sum =
      (acc.map Prod.snd).sum + v := by
  unfold upsertWith
  rw [find?_key_eq]
  cases h : lookupKey k acc with
  | some c =>
    have hmem : k ∈ acc.map Prod.fst := by
      rw [← lookupKey_isSome_iff_mem_map_fst, h]; rfl
    simpa using sum_snd_bumpWith_of_mem hmem v
  | none => simp

theorem sum_snd_groupFold [AddCommMonoid R] (key : α → κ) (val : α → R) (l : List α) :
    ((groupFold key val (fun c v => c + v) l).map Prod.snd).sum = (l.map val).sum := by
  suffices hgen : ∀ (l : List α) (acc : List (κ × R)),
      ((l.foldl (fun a x => upsertWith (fun c v => c + v) a (key x) (val x)) acc).map
        Prod.snd).sum = (acc.map Prod.snd).sum + (l.map val).sum by
    rw [groupFold, hgen]
    simp
  intro l
  induction l with
  | nil => simp
  | cons x xs ih =>
    intro acc
    rw [List.foldl_cons, ih, sum_snd_upsertWith]
    simp [add_assoc]

end ValueLemmas

/-! ## Data model from `ProductionResults.tsx` (hour/changeover contract) -/

/-- `ScheduleItem` of `ProductionResults.tsx` / the `schedule` entries of
`APIResponse` in `LPSolver.tsx`. -/
structure ScheduleItem (R : Type) where
  customer : String
  machine : String
  hour : Int
  quantity : R
  spec : String
deriving DecidableEq

/-- `Changeover` of `ProductionResults.tsx` / the `changeovers` entries of
`APIResponse` in `LPSolver.tsx`. -/
structure ChangeoverItem where
  machine : String
  hour : Int
  from_spec : String
  to_spec : String
deriving DecidableEq

/-- Ascending comparison on the key of a keyed record, modelling the
comparator `(a, b) => a.hour - b.hour` handed to `Array.prototype.sort`. -/
def keyLE {R : Type} (a b : Int × R) : Prop := a.1 ≤ b.1

instance {R : Type} : DecidableRel (@keyLE R) :=
  fun a b => inferInstanceAs (Decidable (a.1 ≤ b.1))

instance {R : Type} : IsTrans (Int × R) keyLE :=
  ⟨fun _ _ _ h₁ h₂ => le_trans h₁ h₂⟩

instance {R : Type} : IsTotal (Int × R) keyLE :=
  ⟨fun a b => le_total a.1 b.1⟩

/-- `productionByHour` of `ProductionResults.tsx`: reduce the schedule into
per-hour records (find an existing record for the hour and add the quantity
into it, else push a new record), then sort ascending by hour. -/
def productionByHour {R : Type} [Add R] (schedule : List (ScheduleItem R)) :
    List (Int × R) :=
  List.insertionSort keyLE
    (groupFold (fun item => item.hour) (fun item => item.quantity)
      (fun c v => c + v) schedule)

/-- `productionByMachine` of `ProductionResults.tsx`: reduce the schedule into
per-machine records (find an existing record for the machine and add the
quantity into it, else push a new record); no sort. -/
def productionByMachine {R : Type} [Add R] (schedule : List (ScheduleItem R)) :
    List (String × R) :=
  groupFold (fun item => item.machine) (fun item => item.quantity)
    (fun c v => c + v) schedule

/-! ## Data model from `LPSolver.tsx` -/

/-- One element of `ProductionFormData.machines` in `LPSolver.tsx`. -/
structure MachineEntry (R : Type) where
  name : String
  capacity : R
deriving DecidableEq

/-- One element of `ProductionFormData.demands` in `LPSolver.tsx`. -/
structure DemandEntry (R : Type) where
  customer : String
  spec : String
  quantity : R
deriving DecidableEq

/-- `ProductionFormData` of `LPSolver.tsx` (the `ScheduleParameters` of the
specification). -/
structure ProductionFormData (R : Type) where
  customers : List String
  machines : List (MachineEntry R)
  specifications : List String
  demands : List (DemandEntry R)
  cleaning_time : R
  hours_per_day : Int
  changeover_cost : R
  min_run_time : Int
  shift_start_hour : Int
  shift_end_hour : Int
deriving DecidableEq

/-- The object `machine_capacity_per_hour` built in `solveLP` by
`params.machines.reduce((acc, machine) => { acc[machine.name] = machine.capacity; return acc; }, {})`:
a JavaScript object modelled as an association list in key-insertion order;
assigning to an existing key overwrites its value in place. -/
def machine_capacity_per_hour {R : Type} (machines : List (MachineEntry R)) :
    List (String × R) :=
  groupFold (fun m => m.name) (fun m => m.capacity) (fun _ v => v) machines

/-- The request body `apiData` built in `solveLP` (the `SolveRequest` of the
specification). -/
structure ApiData (R : Type) where
  customers : List String
  machines : List String
  specifications : List String
  demands : List (DemandEntry R)
  machine_capacity_per_hour : List (String × R)
  cleaning_time : R
  hours_per_day : Int
  changeover_cost : R
  min_run_time : Int
  shift_start_hour : Int
  shift_end_hour : Int
deriving DecidableEq

/-- Construction of `apiData` in `solveLP` (`LPSolver.tsx` lines 58-77).  The
source performs no validation of any kind before building the request: every
field of `params` is passed through, demands verbatim.  (`Object.keys` returns
integer-like string keys first in JavaScript; no claim depends on the order of
the `machines` list, which is otherwise key-insertion order.) -/
def buildApiData {R : Type} (params : ProductionFormData R) : ApiData R :=
  let mcph := machine_capacity_per_hour params.machines
  { customers := params.customers
    machines := mcph.map Prod.fst
    specifications := params.specifications
    demands := params.demands
    machine_capacity_per_hour := mcph
    cleaning_time := params.cleaning_time
    hours_per_day := params.hours_per_day
    changeover_cost := params.changeover_cost
    min_run_time := params.min_run_time
    shift_start_hour := params.shift_start_hour
    shift_end_hour := params.shift_end_hour }

/-- `APIResponse` of `LPSolver.tsx`. -/
structure APIResponse (R : Type) where
  objective_value : R
  computation_time : R
  status : String
  schedule : List (ScheduleItem R)
  changeovers : List ChangeoverItem
deriving DecidableEq

/-- The React state of the `LPSolver` component: `solution`, `isLoading`,
`error` (`useState` hooks, `LPSolver.tsx` lines 49-51). -/
structure UIState (R : Type) where
  solution : Option (APIResponse R)
  isLoading : Bool
  error : Option String
deriving DecidableEq

/-- The possible outcomes of the `await fetch`/`response.json()` part of
`solveLP`, enumerating its exit paths: a 2xx response with a well-formed body;
a non-2xx response (whose body carries an optional `detail` string — `none`
models a missing or falsy `detail`); a network failure (`fetch` rejects with
an `Error`); a 2xx status whose body fails to parse (`response.json()` throws
an `Error`); or a thrown value that is not an `Error` instance. -/
inductive FetchOutcome (R : Type) where
  | ok (result : APIResponse R)
  | httpError (detail : Option String)
  | networkError (msg : String)
  | malformedBody (msg : String)
  | thrownNonError
deriving DecidableEq

/-- Entry of `solveLP` (`LPSolver.tsx` lines 54-55): `setIsLoading(true);
setError(null);`.  Note there is no guard on `isLoading`: `solveLP` starts
unconditionally, whatever the current state. -/
def solveLPStart {R : Type} (s : UIState R) : UIState R :=
  { s with isLoading := true, error := none }

/-- Full effect of one `solveLP` call on the component state, given the
outcome of the network call (`LPSolver.tsx` lines 53-101).  On success the
parsed body is stored via `setSolution`; every failure path throws into the
`catch` block, which stores a message via `setError` (the `detail` of a
non-2xx body, defaulted to `'Failed to get optimization results'`; an
`Error`'s message; or `'An unexpected error occurred'` for a non-`Error`
throw); the `finally` block runs `setIsLoading(false)` on every path. -/
def solveLPRun {R : Type} (s : UIState R) (o : FetchOutcome R) : UIState R :=
  let s1 := solveLPStart s
  match o with
  | .ok result => { s1 with solution := some result, isLoading := false }
  | .httpError detail =>
      { s1 with error := some (detail.getD "Failed to get optimization results"),
                isLoading := false }
  | .networkError msg => { s1 with error := some msg, isLoading := false }
  | .malformedBody msg => { s1 with error := some msg, isLoading := false }
  | .thrownNonError =>
      { s1 with error := some "An unexpected error occurred", isLoading := false }

/-! ## Data model from the period-based results view (`ProductionForm.tsx`,
second `ProductionResults` component) -/

/-- `ProductionSchedule` entry of the period-based results view. -/
structure ProductionSchedule (R : Type) where
  specification : String
  machine : String
  period : Int
  quantity : R
deriving DecidableEq

/-- `BufferTime` entry of the period-based results view. -/
structure BufferTime (R : Type) where
  specification : String
  machine : String
  period : Int
  time : R
deriving DecidableEq

/-- `EmergencyOrder` entry of the period-based results view. -/
structure EmergencyOrder where
  specification : String
  machine : String
  period : Int
deriving DecidableEq

/-- `productionByPeriod` of the period-based results view: group the schedule
by period summing quantity, then sort ascending by period. -/
def productionByPeriod {R : Type} [Add R] (schedule : List (ProductionSchedule R)) :
    List (Int × R) :=
  List.insertionSort keyLE
    (groupFold (fun item => item.period) (fun item => item.quantity)
      (fun c v => c + v) schedule)

/-- `bufferByMachine` of the period-based results view: group buffer times by
machine summing `time`; no sort. -/
def bufferByMachine {R : Type} [Add R] (bufferTimes : List (BufferTime R)) :
    List (String × R) :=
  groupFold (fun item => item.machine) (fun item => item.time)
    (fun c v => c + v) bufferTimes

/-- `emergencyBySpec` of the period-based results view: group emergency orders
by specification counting occurrences (`count += 1`, starting at `1`). -/
def emergencyBySpec (emergencyOrders : List EmergencyOrder) : List (String × Nat) :=
  groupFold (fun item => item.specification) (fun _ => 1)
    (fun c v => c + v) emergencyOrders

/-- The join predicate of the detail table (`ProductionForm.tsx` lines
628-637): equality of the (period, machine, specification) triple. -/
def tripleMatches {R : Type} (bper : Int) (bmach bspec : String)
    (item : ProductionSchedule R) : Prop :=
  bper = item.period ∧ bmach = item.machine ∧ bspec = item.specification

instance {R : Type} (bper : Int) (bmach bspec : String) (item : ProductionSchedule R) :
    Decidable (tripleMatches bper bmach bspec item) :=
  inferInstanceAs (Decidable (_ ∧ _ ∧ _))

/-- Buffer time attached to a detail row: `bufferTimes.find(b => ...)` and
`buffer?.time || 0` (`ProductionForm.tsx` lines 628-632 and 645; a found
`time` of `0` and an absent entry both display `0`). -/
def detailBuffer {R : Type} [Zero R] (bufferTimes : List (BufferTime R))
    (item : ProductionSchedule R) : R :=
  match bufferTimes.find?
      (fun b => decide (tripleMatches b.period b.machine b.specification item)) with
  | some b => b.time
  | none => 0

/-- Emergency flag attached to a detail row: `emergencyOrders.some(e => ...)`
(`ProductionForm.tsx` lines 633-637). -/
def isEmergency {R : Type} (emergencyOrders : List EmergencyOrder)
    (item : ProductionSchedule R) : Bool :=
  emergencyOrders.any
    (fun e => decide (tripleMatches e.period e.machine e.specification item))

/-- The detail table rows (`ProductionForm.tsx` lines 627-651): each schedule
entry with its joined buffer time and emergency flag. -/
def detailRows {R : Type} [Zero R] (schedule : List (ProductionSchedule R))
    (bufferTimes : List (BufferTime R)) (emergencyOrders : List EmergencyOrder) :
    List (ProductionSchedule R × R × Bool) :=
  schedule.map (fun item =>
    (item, detailBuffer bufferTimes item, isEmergency emergencyOrders item))

/-! ## State-threaded aggregation (frame property)

The JavaScript reduce callbacks and the detail-table `map` callback close over
the props collections (`schedule`, `bufferTimes`, `emergencyOrders`) and could
in principle write to them; to make the frame property expressible, each pass
is modelled as a fold whose state carries the props value alongside the
accumulator, and the step functions are the translations of the source
callbacks (which only read the props). -/

/-- A fold threading a props component `P` through: the step produces the next
accumulator from the whole state. -/
def foldThreaded {P α A : Type} (g : P × A → α → A) (st : P × A) (l : List α) :
    P × A :=
  l.foldl (fun st x => (st.1, g st x)) st

/-- Props of the period-based `ProductionResults` component
(`ProductionForm.tsx`). -/
structure ResultsProps (R : Type) where
  schedule : List (ProductionSchedule R)
  bufferTimes : List (BufferTime R)
  emergencyOrders : List EmergencyOrder
deriving DecidableEq

/-- The derived views of the period-based results component. -/
structure AggregateViews (R : Type) where
  productionByPeriod : List (Int × R)
  bufferByMachine : List (String × R)
  emergencyBySpec : List (String × Nat)
  detailRows : List (ProductionSchedule R × R × Bool)
deriving DecidableEq

/-- All aggregations of the period-based results component, run in source
order with the props threaded through every step. -/
def aggregateAll {R : Type} [Add R] [Zero R] (p₀ : ResultsProps R) :
    ResultsProps R × AggregateViews R :=
  let s₁ := foldThreaded
    (fun st item => upsertWith (fun c v => c + v) st.2 item.period item.quantity)
    (p₀, ([] : List (Int × R))) p₀.schedule
  let s₂ := foldThreaded
    (fun st item => upsertWith (fun c v => c + v) st.2 item.machine item.time)
    (s₁.1, ([] : List (String × R))) s₁.1.bufferTimes
  let s₃ := foldThreaded
    (fun st item => upsertWith (fun c v => c + v) st.2 item.specification (1 : Nat))
    (s₂.1, ([] : List (String × Nat))) s₂.1.emergencyOrders
  let s₄ := foldThreaded
    (fun st item => st.2 ++
      [(item, detailBuffer st.1.bufferTimes item, isEmergency st.1.emergencyOrders item)])
    (s₃.1, ([] : List (ProductionSchedule R × R × Bool))) s₃.1.schedule
  (s₄.1,
    { productionByPeriod := List.insertionSort keyLE s₁.2
      bufferByMachine := s₂.2
      emergencyBySpec := s₃.2
      detailRows := s₄.2 })

/-- Props of the hour-based `ProductionResults` component
(`ProductionResults.tsx`). -/
structure HourProps (R : Type) where
  schedule : List (ScheduleItem R)
  changeovers : List ChangeoverItem
deriving DecidableEq

/-- The two aggregations of the hour-based results component
(`productionByHour`, `productionByMachine`), with the props threaded. -/
def hourAggregateAll {R : Type} [Add R] (p₀ : HourProps R) :
    HourProps R × (List (Int × R) × List (String × R)) :=
  let s₁ := foldThreaded
    (fun st item => upsertWith (fun c v => c + v) st.2 item.hour item.quantity)
    (p₀, ([] : List (Int × R))) p₀.schedule
  let s₂ := foldThreaded
    (fun st item => upsertWith (fun c v => c + v) st.2 item.machine item.quantity)
    (s₁.1, ([] : List (String × R))) s₁.1.schedule
  (s₂.1, (List.insertionSort keyLE s₁.2, s₂.2))

theorem foldThreaded_fst {P α A : Type} (g : P × A → α → A) (st : P × A)
    (l : List α) : (foldThreaded g st l).1 = st.1 := by
  induction l generalizing st with
  | nil => rfl
  | cons x xs ih => exact ih (st.1, g st x)

theorem foldThreaded_eq {P α A : Type} (g : P → A → α → A) (p : P) (a : A)
    (l : List α) :
    foldThreaded (fun st x => g st.1 st.2 x) (p, a) l = (p, l.foldl (g p) a) := by
  induction l generalizing a with
  | nil => rfl
  | cons x xs ih => exact ih (g p a x)

theorem foldl_push_eq_map {α β' : Type} (h : α → β') (l : List α) (acc : List β') :
    l.foldl (fun a x => a ++ [h x]) acc = acc ++ l.map h := by
  induction l generalizing acc with
  | nil => simp
  | cons x xs ih => simp [ih, List.append_assoc]

theorem find?_eq_head_filter {α : Type} (p : α → Bool) (l : List α) :
    l.find? p = (l.filter p).head? := by
  induction l with
  | nil => rfl
  | cons x xs ih =>
    cases h : p x
    · simp only [List.find?_cons, List.filter_cons, h]
      exact ih
    · simp only [List.find?_cons, List.filter_cons, h]
      rfl

/-! ## Claim theorems -/

/-- Claim C2 (counterexample): a form input whose single demand references
specification "SX", which is absent from the specifications collection.
`solveLP` performs no validation: it builds the request anyway, with the
dangling demand passed through verbatim — no `MissingReference` error exists
anywhere in the code and a request is produced. -/
def invalidDemandParams : ProductionFormData Int :=
  { customers := ["A"]
    machines := [{ name := "M1", capacity := 7 }]
    specifications := ["Spec1"]
    demands := [{ customer := "A", spec := "SX", quantity := 50 }]
    cleaning_time := 3
    hours_per_day := 24
    changeover_cost := 100
    min_run_time := 2
    shift_start_hour := 0
    shift_end_hour := 24 }

/-- Claim C2 is false on the code: at `invalidDemandParams` a demand
references the specification "SX" absent from the specifications collection,
yet the request object is constructed (and would be submitted), containing
that demand — nothing resembling `ValidationError::MissingReference` is
returned and the construction does not fail. -/
theorem missing_reference_not_validated_cex :
    (∃ d ∈ invalidDemandParams.demands, invalidDemandParams.specifications.all
      (fun s => decide (s ≠ d.spec))) ∧
    buildApiData invalidDemandParams =
      { customers := ["A"]
        machines := ["M1"]
        specifications := ["Spec1"]
        demands := [{ customer := "A", spec := "SX", quantity := 50 }]
        machine_capacity_per_hour := [("M1", 7)]
        cleaning_time := 3
        hours_per_day := 24
        changeover_cost := 100
        min_run_time := 2
        shift_start_hour := 0
        shift_end_hour := 24 } := by
  constructor
  · exact ⟨{ customer := "A", spec := "SX", quantity := 50 },
      List.mem_cons_self _ _, by decide⟩
  · decide

/-- Claim C2 (amended): `solveLP` performs no reference validation at all.
For every input the request is built unconditionally, with the customers,
specifications and demands collections passed through verbatim — in
particular a demand whose `spec` is absent from `specifications` is put into
the request unchanged, and no error value of any kind is produced. -/
theorem build_performs_no_validation {R : Type} (params : ProductionFormData R) :
    (buildApiData params).demands = params.demands ∧
    (buildApiData params).specifications = params.specifications ∧
    (buildApiData params).customers = params.customers :=
  ⟨rfl, rfl, rfl⟩

/-- Claim C3 (counterexample): from a state in which a submission is pending
(`isLoading = true`), a second `solveLP` call is not rejected: it runs to
completion and stores its response, exactly as it would from the idle state.
No `AlreadyInFlight` rejection exists in the code. -/
def pendingState : UIState Int :=
  { solution := none, isLoading := true, error := none }

/-- A concrete solver response used to exercise the state machine. -/
def sampleResponse : APIResponse Int :=
  { objective_value := 100
    computation_time := 1
    status := "optimal"
    schedule := [{ customer := "A", machine := "M1", hour := 0, quantity := 50,
                   spec := "Spec1" }]
    changeovers := [] }

/-- Claim C3 is false on the code: with the first submission still pending
(`pendingState.isLoading = true`), a second submission is executed — it
performs its network call and stores the response — rather than being
rejected with an `AlreadyInFlight` error (no such error exists in the code). -/
theorem pending_submission_executes_cex :
    pendingState.isLoading = true ∧
    solveLPRun pendingState (.ok sampleResponse) =
      { solution := some sampleResponse, isLoading := false, error := none } :=
  ⟨rfl, rfl⟩

/-- Claim C3 (amended): `solveLP` has no in-flight guard: its behaviour is
independent of the `isLoading` flag, so a submission issued while another is
pending is executed (its response stored on success) rather than rejected;
the only concurrency protection is the blocking overlay rendered while
`isLoading` is true.  After any submission settles the flag is `false` again
(the component is back to idle). -/
theorem solveLP_has_no_inflight_guard {R : Type} (sol : Option (APIResponse R))
    (err : Option String) (b b' : Bool) (o : FetchOutcome R) :
    solveLPRun ⟨sol, b, err⟩ o = solveLPRun ⟨sol, b', err⟩ o ∧
    (∀ r, (solveLPRun ⟨sol, b, err⟩ (.ok r)).solution = some r) ∧
    (solveLPRun ⟨sol, b, err⟩ o).isLoading = false := by
  refine ⟨?_, fun r => rfl, ?_⟩ <;> cases o <;> rfl

/-- Claim C8: the blocking-progress flag is set on entry to a submission and
is released on every exit path — success, any failure (non-2xx status,
network error, malformed body) and an unexpected (non-`Error`) exception —
because `setIsLoading(false)` runs in the `finally` block. -/
theorem loading_flag_released_on_every_exit {R : Type} (s : UIState R)
    (o : FetchOutcome R) :
    (solveLPStart s).isLoading = true ∧ (solveLPRun s o).isLoading = false := by
  refine ⟨rfl, ?_⟩
  cases o <;> rfl

/-- Claim C10: every failing submission — non-2xx HTTP status, network error,
unparseable body, or a non-`Error` throw — leaves the stored solution exactly
as it was before the submission: the failure path only sets an error message
(and clears the loading flag), never touching `solution`. -/
theorem failure_preserves_solution {R : Type} (s : UIState R) :
    (∀ detail, (solveLPRun s (.httpError detail)).solution = s.solution) ∧
    (∀ msg, (solveLPRun s (.networkError msg)).solution = s.solution) ∧
    (∀ msg, (solveLPRun s (.malformedBody msg)).solution = s.solution) ∧
    (solveLPRun s .thrownNonError).solution = s.solution :=
  ⟨fun _ => rfl, fun _ => rfl, fun _ => rfl, rfl⟩

/-- Claim C1: the machine-capacity mapping built by `solveLP` has exactly one
entry per distinct machine name of the input list (its keys are nodup and are
exactly the names occurring in the input), and the value stored under each
name is the capacity of the last-occurring machine record with that name
(duplicate names overwrite: last write wins). -/
theorem machine_capacity_mapping_spec {R : Type} (machines : List (MachineEntry R)) :
    ((machine_capacity_per_hour machines).map Prod.fst).Nodup ∧
    (∀ k, k ∈ (machine_capacity_per_hour machines).map Prod.fst ↔
      ∃ m ∈ machines, m.name = k) ∧
    (∀ k, lookupKey k (machine_capacity_per_hour machines) =
      ((machines.filter (fun m => decide (m.name = k))).getLast?).map
        (fun m => m.capacity)) := by
  refine ⟨nodup_map_fst_groupFold _ _ _ _, ?_, ?_⟩
  · intro k
    rw [machine_capacity_per_hour, map_fst_groupFold, mem_firstOccurrences,
      List.mem_map]
  · intro k
    exact lookupKey_groupFold_lastWins _ _ _ _

/-- Claim C4: the sum of the per-hour totals, the sum of the per-machine
totals, and the sum of the raw schedule quantities all agree (each view is a
regrouping of the same quantities; both equal the raw sum, hence each other). -/
theorem totals_sum_consistency {R : Type} [AddCommMonoid R]
    (schedule : List (ScheduleItem R)) :
    ((productionByHour schedule).map Prod.snd).sum =
      (schedule.map (fun item => item.quantity)).sum ∧
    ((productionByMachine schedule).map Prod.snd).sum =
      (schedule.map (fun item => item.quantity)).sum := by
  constructor
  · have hperm := List.perm_insertionSort keyLE
      (groupFold (fun item : ScheduleItem R => item.hour)
        (fun item => item.quantity) (fun c v => c + v) schedule)
    have hsum := (hperm.map Prod.snd).sum_eq
    rw [productionByHour, hsum]
    exact sum_snd_groupFold _ _ _
  · exact sum_snd_groupFold _ _ _

/-- Claim C5: the buffer time attached to a detail row is the `time` of the
first entry of `bufferTimes` whose (machine, period, specification) triple
equals that of the schedule entry, and `0` when no entry matches; the
emergency flag is true exactly when some entry of `emergencyOrders` has an
equal triple. -/
theorem detail_row_join_spec {R : Type} [Zero R] (bufferTimes : List (BufferTime R))
    (emergencyOrders : List EmergencyOrder) (item : ProductionSchedule R) :
    detailBuffer bufferTimes item =
      (match (bufferTimes.filter
          (fun b => decide (tripleMatches b.period b.machine b.specification item))).head?
        with
        | some b => b.time
        | none => 0) ∧
    (isEmergency emergencyOrders item = true ↔
      ∃ e ∈ emergencyOrders,
        tripleMatches e.period e.machine e.specification item) := by
  constructor
  · unfold detailBuffer
    rw [find?_eq_head_filter]
  · rw [isEmergency, List.any_eq_true]
    constructor
    · rintro ⟨e, he, hm⟩
      exact ⟨e, he, of_decide_eq_true hm⟩
    · rintro ⟨e, he, hm⟩
      exact ⟨e, he, decide_eq_true hm⟩

/-- Claim C6: the per-hour totals contain exactly one record per distinct hour
occurring in the schedule (nodup keys, key membership coincides with hour
occurrence), each hour's quantity is the sum of the quantities of the schedule
entries with that hour, and the records are strictly ascending by hour. -/
theorem production_by_hour_grouping_spec {R : Type} [AddCommMonoid R]
    (schedule : List (ScheduleItem R)) :
    ((productionByHour schedule).map Prod.fst).Nodup ∧
    (∀ h, h ∈ (productionByHour schedule).map Prod.fst ↔
      h ∈ schedule.map (fun item => item.hour)) ∧
    (∀ h, lookupKey h (productionByHour schedule) =
      if h ∈ schedule.map (fun item => item.hour) then
        some (((schedule.filter (fun item => decide (item.hour = h))).map
          (fun item => item.quantity)).sum)
      else none) ∧
    (productionByHour schedule).Pairwise (fun a b => a.1 < b.1) := by
  have hperm := List.perm_insertionSort keyLE
    (groupFold (fun item : ScheduleItem R => item.hour)
      (fun item => item.quantity) (fun c v => c + v) schedule)
  have hnodupg := nodup_map_fst_groupFold
    (fun item : ScheduleItem R => item.hour) (fun item => item.quantity)
    (fun c v => c + v) schedule
  have hnodup : ((productionByHour schedule).map Prod.fst).Nodup := by
    rw [productionByHour]
    exact ((hperm.map Prod.fst).nodup_iff).mpr hnodupg
  refine ⟨hnodup, ?_, ?_, ?_⟩
  · intro h
    rw [productionByHour, (hperm.map Prod.fst).mem_iff, map_fst_groupFold,
      mem_firstOccurrences]
  · intro h
    rw [productionByHour, ← lookupKey_eq_of_perm hnodupg hperm.symm h]
    exact lookupKey_groupFold_add _ _ _ _
  · have hsorted : List.Sorted keyLE (productionByHour schedule) := by
      rw [productionByHour]
      exact List.sorted_insertionSort keyLE _
    have hne : (productionByHour schedule).Pairwise (fun a b => a.1 ≠ b.1) :=
      List.pairwise_map.mp hnodup
    exact (hsorted.and hne).imp (fun hab => lt_of_le_of_ne hab.1 hab.2)

/-- Claim C7: the per-machine totals list machines in first-occurrence order
of the raw schedule (their keys are exactly the first occurrences of the
machine names, in that order — not sorted), with one record per distinct
machine whose quantity is the sum of that machine's schedule quantities. -/
theorem production_by_machine_grouping_spec {R : Type} [AddCommMonoid R]
    (schedule : List (ScheduleItem R)) :
    (productionByMachine schedule).map Prod.fst =
      firstOccurrences (schedule.map (fun item => item.machine)) ∧
    ((productionByMachine schedule).map Prod.fst).Nodup ∧
    (∀ k, lookupKey k (productionByMachine schedule) =
      if k ∈ schedule.map (fun item => item.machine) then
        some (((schedule.filter (fun item => decide (item.machine = k))).map
          (fun item => item.quantity)).sum)
      else none) :=
  ⟨map_fst_groupFold _ _ _ _, nodup_map_fst_groupFold _ _ _ _,
    fun k => lookupKey_groupFold_add _ _ _ k⟩

/-- Claim C9: running every aggregation pass (per-period totals, buffer time
by machine, emergency counts by specification, the detail-row join, and the
hour-based per-hour/per-machine totals) leaves the input collections exactly
as they were — the threaded props component comes out unchanged — and the
views produced are precisely the pure aggregation functions of the inputs. -/
theorem aggregation_preserves_inputs {R : Type} [AddCommMonoid R]
    (p : ResultsProps R) (q : HourProps R) :
    (aggregateAll p).1 = p ∧
    (aggregateAll p).2 =
      { productionByPeriod := productionByPeriod p.schedule
        bufferByMachine := bufferByMachine p.bufferTimes
        emergencyBySpec := emergencyBySpec p.emergencyOrders
        detailRows := detailRows p.schedule p.bufferTimes p.emergencyOrders } ∧
    (hourAggregateAll q).1 = q ∧
    (hourAggregateAll q).2 =
      (productionByHour q.schedule, productionByMachine q.schedule) := by
  have e₁ : foldThreaded (fun st (item : ProductionSchedule R) =>
      upsertWith (fun c v => c + v) st.2 item.period item.quantity)
      (p, ([] : List (Int × R))) p.schedule =
      (p, groupFold (fun item => item.period) (fun item => item.quantity)
        (fun c v => c + v) p.schedule) :=
    foldThreaded_eq
      (fun _ acc item => upsertWith (fun c v => c + v) acc item.period item.quantity)
      p [] p.schedule
  have e₂ : foldThreaded (fun st (item : BufferTime R) =>
      upsertWith (fun c v => c + v) st.2 item.machine item.time)
      (p, ([] : List (String × R))) p.bufferTimes =
      (p, groupFold (fun item => item.machine) (fun item => item.time)
        (fun c v => c + v) p.bufferTimes) :=
    foldThreaded_eq
      (fun _ acc item => upsertWith (fun c v => c + v) acc item.machine item.time)
      p [] p.bufferTimes
  have e₃ : foldThreaded (fun st (item : EmergencyOrder) =>
      upsertWith (fun c v => c + v) st.2 item.specification (1 : Nat))
      (p, ([] : List (String × Nat))) p.emergencyOrders =
      (p, groupFold (fun item => item.specification) (fun _ => (1 : Nat))
        (fun c v => c + v) p.emergencyOrders) :=
    foldThreaded_eq
      (fun _ acc item => upsertWith (fun c v => c + v) acc item.specification (1 : Nat))
      p [] p.emergencyOrders
  have e₄ : foldThreaded (fun st (item : ProductionSchedule R) => st.2 ++
      [(item, detailBuffer st.1.bufferTimes item, isEmergency st.1.emergencyOrders item)])
      (p, ([] : List (ProductionSchedule R × R × Bool))) p.schedule =
      (p, detailRows p.schedule p.bufferTimes p.emergencyOrders) := by
    have := foldThreaded_eq
      (fun pr acc (item : ProductionSchedule R) => acc ++
        [(item, detailBuffer pr.bufferTimes item, isEmergency pr.emergencyOrders item)])
      p [] p.schedule
    rw [this, foldl_push_eq_map, List.nil_append]
    rfl
  have f₁ : foldThreaded (fun st (item : ScheduleItem R) =>
      upsertWith (fun c v => c + v) st.2 item.hour item.quantity)
      (q, ([] : List (Int × R))) q.schedule =
      (q, groupFold (fun item => item.hour) (fun item => item.quantity)
        (fun c v => c + v) q.schedule) :=
    foldThreaded_eq
      (fun _ acc item => upsertWith (fun c v => c + v) acc item.hour item.quantity)
      q [] q.schedule
  have f₂ : foldThreaded (fun st (item : ScheduleItem R) =>
      upsertWith (fun c v => c + v) st.2 item.machine item.quantity)
      (q, ([] : List (String × R))) q.schedule =
      (q, groupFold (fun item => item.machine) (fun item => item.quantity)
        (fun c v => c + v) q.schedule) :=
    foldThreaded_eq
      (fun _ acc item => upsertWith (fun c v => c + v) acc item.machine item.quantity)
      q [] q.schedule
  refine ⟨?_, ?_, ?_, ?_⟩
  · simp only [aggregateAll]
    rw [e₁]
    dsimp only
    rw [e₂]
    dsimp only
    rw [e₃]
    dsimp only
    rw [e₄]
  · simp only [aggregateAll]
    rw [e₁]
    dsimp only
    rw [e₂]
    dsimp only
    rw [e₃]
    dsimp only
    rw [e₄]
    rfl
  · simp only [hourAggregateAll]
    rw [f₁]
    dsimp only
    rw [f₂]
  · simp only [hourAggregateAll]
    rw [f₁]
    dsimp only
    rw [f₂]
    rfl
